import Mathlib

/-! Verification of the repoman artifact catalog (repoman/common/artifact.py,
repoman/common/utils.py, repoman/cmd.py).

The source is Python 2. The embedding makes the relevant Python semantics
explicit:

* Python `str` values that take part in segment comparison are modelled as
  `List Char`; Python 2 compares byte strings lexicographically, which for
  ASCII (and, via UTF-8, for all code points) agrees with lexicographic
  comparison of the character lists by code point.
* Python 2 comparison between an `int` and a `str` always orders the number
  first ("numbers are smaller than anything else" in the CPython 2
  `default_3way_compare`); `pySegCmp` encodes exactly that rule.
* Python dicts are modelled as association lists with the usual hash-map
  key semantics (membership and lookup by key equality). The list order
  stands in for CPython 2's hash-determined slot order: for a small dict
  whose keys occupy distinct slots of its table, that order is a function
  of the key hashes alone, independent of the insertion sequence, and a
  fresh dict over a subset of another dict's keys iterates them in the
  same relative order. Where a settled result depends on a concrete
  iteration order (the `get_latest` order counterexample), the true
  CPython 2 hashes and slots of the concrete keys are documented at the
  fixture.
* The filesystem is modelled as the list of existing paths; `os.remove`
  deletes a path, `os.path.exists` is membership.
-/

/-- Python 2 `cmp` result encoded as an `Int` in {-1, 0, 1}. -/
def orderingToInt : Ordering → Int
  | .lt => -1
  | .eq => 0
  | .gt => 1

/-- Three-way comparison from a linear order (the comparison Python 2 uses
within one type such as `int` with `int` or `char` with `char`). -/
def cmpOfLess {α : Type} [LinearOrder α] (x y : α) : Ordering :=
  if x < y then .lt else if x = y then .eq else .gt

/-- Lexicographic comparison of two lists, Python 2 sequence-comparison
semantics: the first differing aligned pair decides; a strict prefix is
smaller. -/
def listCmp {α : Type} (f : α → α → Ordering) : List α → List α → Ordering
  | [], [] => .eq
  | [], _ :: _ => .lt
  | _ :: _, [] => .gt
  | x :: xs, y :: ys =>
    match f x y with
    | .eq => listCmp f xs ys
    | o => o

/-- The value `utils.tryint` produces for one version segment: a Python `int`
when `int(segment)` succeeds, otherwise the segment string itself. -/
inductive PySeg : Type where
  | int (n : Int) : PySeg
  | str (s : List Char) : PySeg
deriving DecidableEq

/-- Python 2 three-way comparison on segment values: ints numerically,
strings lexicographically, and any int below any str (the CPython 2
mixed-type fallback orders numbers before every other type). -/
def pySegCmp : PySeg → PySeg → Ordering
  | .int a, .int b => cmpOfLess a b
  | .int _, .str _ => .lt
  | .str _, .int _ => .gt
  | .str a, .str b => listCmp cmpOfLess a b

/-- Python `str.strip()` as used by `int()`: drop surrounding whitespace. -/
def pyStrip (cs : List Char) : List Char :=
  ((cs.dropWhile Char.isWhitespace).reverse.dropWhile Char.isWhitespace).reverse

/-- Decimal value of a digit run; `none` if any character is not a digit. -/
def decDigitsAux : List Char → Nat → Option Nat
  | [], acc => some acc
  | c :: cs, acc =>
    if c.isDigit then decDigitsAux cs (10 * acc + (c.toNat - 48)) else none

/-- Decimal value of a non-empty digit run. -/
def decDigits (ds : List Char) : Option Nat :=
  if ds.isEmpty then none else decDigitsAux ds 0

/-- Python 2 `int(s)` on a byte string: optional surrounding whitespace,
optional sign, then a non-empty run of decimal digits; anything else raises
`ValueError` (modelled as `none`). -/
def pyInt? (s : List Char) : Option Int :=
  match pyStrip s with
  | '-' :: ds => (decDigits ds).map (fun n => -(n : Int))
  | '+' :: ds => (decDigits ds).map (fun n => (n : Int))
  | ds => (decDigits ds).map (fun n => (n : Int))

/-- Models `utils.tryint`: cast to int, returning the object unchanged when
the cast fails. -/
def tryint (mayint : List Char) : PySeg :=
  match pyInt? mayint with
  | some n => .int n
  | none => .str mayint

/-- Python `str.split(sep)` (no maxsplit) on character lists. -/
def splitSegsAux (sep : Char) : List Char → List Char → List (List Char)
  | [], cur => [cur.reverse]
  | c :: rest, cur =>
    if c = sep then cur.reverse :: splitSegsAux sep rest []
    else splitSegsAux sep rest (c :: cur)

/-- Python `str.split(sep)` on character lists. -/
def splitSegs (sep : Char) (cs : List Char) : List (List Char) :=
  splitSegsAux sep cs []

/-- Models `utils.split(what, sep, 1)`: Python `str.split(sep, 1)` padded
with an empty string when the separator is absent. -/
def splitMax1 (sep : Char) : List Char → List Char × List Char
  | [] => ([], [])
  | c :: rest =>
    if c = sep then ([], rest)
    else
      let p := splitMax1 sep rest
      (c :: p.1, p.2)

/-- The segment list `utils.cmpver` builds for one version part:
`'.' in ver and ver.split('.') or (ver,)` followed by `[tryint(i) for i in ver]`. -/
def verSegs (v : List Char) : List PySeg :=
  (if v.contains '.' then splitSegs '.' v else [v]).map tryint

/-- Core of `utils.cmpver` on the two version parts: Python 2 compares the
two segment lists (`ver1 > ver2` / `ver1 == ver2`), which is `listCmp
pySegCmp`, and returns 1 / 0 / -1. -/
def cmpverL (ver1 ver2 : List Char) : Int :=
  orderingToInt (listCmp pySegCmp (verSegs ver1) (verSegs ver2))

/-- Models `utils.cmpver` on Python strings. -/
def cmpver (ver1 ver2 : String) : Int :=
  cmpverL ver1.data ver2.data

/-- Models `utils.cmpfullver`: split each argument on the first `-` into
(version, release), compare versions, then releases on a tie. -/
def cmpfullver (fullver1 fullver2 : String) : Int :=
  let p1 := splitMax1 '-' fullver1.data
  let p2 := splitMax1 '-' fullver2.data
  let ver_res := cmpverL p1.1 p2.1
  if ver_res ≠ 0 then ver_res else cmpverL p1.2 p2.2

/-- Segment list of the version part of a full `version-release` string. -/
def fullKey1 (s : String) : List PySeg :=
  verSegs (splitMax1 '-' s.data).1

/-- Segment list of the release part of a full `version-release` string. -/
def fullKey2 (s : String) : List PySeg :=
  verSegs (splitMax1 '-' s.data).2

/-- The comparison of the two segment lists of version parts. -/
def segsCmp : List PySeg → List PySeg → Ordering :=
  listCmp pySegCmp

/-- The comparator `cmpfullver` as an `Ordering`-valued function (proved
equal to `cmpfullver` below): lexicographic on (version segments, release
segments). -/
def fullCmpO : String → String → Ordering :=
  compareLex (Ordering.byKey fullKey1 segsCmp) (Ordering.byKey fullKey2 segsCmp)

/-- Association-list lookup: Python dict `d[k]` / `d.get(k)`. -/
def alLookup {κ β : Type} [DecidableEq κ] (k : κ) : List (κ × β) → Option β
  | [] => none
  | p :: rest => if p.1 = k then some p.2 else alLookup k rest

/-- Python dict membership `k in d`. -/
def alMem {κ β : Type} [DecidableEq κ] (k : κ) (l : List (κ × β)) : Bool :=
  (alLookup k l).isSome

/-- Python dict `d.pop(k)`: drop the entry with the given key. -/
def alErase {κ β : Type} [DecidableEq κ] (k : κ) : List (κ × β) → List (κ × β)
  | [] => []
  | p :: rest => if p.1 = k then rest else p :: alErase k rest

/-- In-place update of the value stored at a key (`d[k].mutate()`). -/
def alUpdate {κ β : Type} [DecidableEq κ] (k : κ) (f : β → β) :
    List (κ × β) → List (κ × β)
  | [] => []
  | p :: rest => if p.1 = k then (p.1, f p.2) :: rest else p :: alUpdate k f rest

/-- One artifact file, with the attributes the catalog code reads.
`name` is `Option String` because `ArtifactList.add_pkg` tests
`artifact.name is not None`. `version` and `ver_rel` are supplied by the
store-specific artifact classes, which are not among the sources; per the
spec they are the artifact's `version-release` VersionKey string. -/
structure Artifact : Type where
  path : String
  name : Option String
  version : String
  ver_rel : String
  inode : Nat
deriving DecidableEq

/-- Models class `ArtifactInode`: a list of artifact instances sharing one
inode, remembering its inode key. -/
structure ArtifactInode : Type where
  inode : Nat
  artifacts : List Artifact
deriving DecidableEq

/-- Models class `ArtifactVersion`: dict inode -> ArtifactInode. -/
structure ArtifactVersion : Type where
  version : String
  inodes : List (Nat × ArtifactInode)
deriving DecidableEq

/-- Models class `ArtifactName`: dict version-key -> ArtifactVersion. -/
structure ArtifactName : Type where
  name : String
  versions : List (String × ArtifactVersion)
deriving DecidableEq

/-- Models class `ArtifactList`: dict name -> ArtifactName. -/
structure ArtifactList : Type where
  name : String
  names : List (String × ArtifactName)
deriving DecidableEq

/-- Models `os.remove(path)` on the modelled filesystem. -/
def osRemove (fs : List String) (path : String) : List String :=
  fs.erase path

/-- Models `ArtifactInode.delete`: for each member, when not `noop` and the
file exists, remove it; under `noop` only log. Returns the filesystem. -/
def ArtifactInode.delete (self : ArtifactInode) (noop : Bool) (fs : List String) :
    List String :=
  self.artifacts.foldl
    (fun fs artifact =>
      if !noop && fs.contains artifact.path then osRemove fs artifact.path else fs)
    fs

/-- Models `ArtifactInode.get_artifacts`: if a regex was passed filter by it
on the path, elif a filter function was passed filter by it, else all
members. The compiled regex is modelled as a path predicate. -/
def ArtifactInode.get_artifacts (self : ArtifactInode)
    (regmatch : Option (String → Bool)) (fmatch : Option (Artifact → Bool)) :
    List Artifact :=
  match regmatch with
  | some rm => self.artifacts.filter (fun art => rm art.path)
  | none =>
    match fmatch with
    | some fm => self.artifacts.filter fm
    | none => self.artifacts

/-- Models `ArtifactVersion.add_artifact`: create the inode group if absent,
append the artifact to it, return True. -/
def ArtifactVersion.add_artifact (self : ArtifactVersion) (artifact : Artifact) :
    Bool × ArtifactVersion :=
  let inodes1 :=
    if alMem artifact.inode self.inodes then self.inodes
    else self.inodes ++ [(artifact.inode, ⟨artifact.inode, []⟩)]
  (true,
    { self with
      inodes :=
        alUpdate artifact.inode
          (fun g => { g with artifacts := g.artifacts ++ [artifact] }) inodes1 })

/-- Models `ArtifactVersion.delete_inode`: if the inode is present, delete
its files (honouring `noop`) and pop the group. The pop is unconditional:
it happens under `noop` too. -/
def ArtifactVersion.delete_inode (self : ArtifactVersion) (inode : Nat)
    (noop : Bool) (fs : List String) : ArtifactVersion × List String :=
  match alLookup inode self.inodes with
  | none => (self, fs)
  | some g => ({ self with inodes := alErase inode self.inodes }, g.delete noop fs)

/-- Models `ArtifactVersion.get_artifacts`: concatenate the groups' filtered
members in dict-value order. -/
def ArtifactVersion.get_artifacts (self : ArtifactVersion)
    (regmatch : Option (String → Bool)) (fmatch : Option (Artifact → Bool)) :
    List Artifact :=
  ((self.inodes.map Prod.snd).map
    (fun inode => inode.get_artifacts regmatch fmatch)).flatten

/-- Outcome of running `ArtifactVersion.delete`, which mutates the dict it
is iterating over. -/
structure DeleteResult : Type where
  bucket : ArtifactVersion
  fs : List String
  raised : Bool
deriving DecidableEq

/-- Models `ArtifactVersion.delete`:

    for inode in self:
        self[inode].delete(noop)
        self.pop(inode)

The loop iterates over the dict itself while popping from it. A CPython
dict iterator compares the dict's current size with the size recorded at
iterator creation on every `next()` call and raises
`RuntimeError: dictionary changed size during iteration` on mismatch. On an
empty dict the loop ends normally; otherwise the first key is yielded and
processed (its files deleted per `noop`, its entry popped) and the second
`next()` raises, leaving every remaining group in place. -/
def ArtifactVersion.delete (self : ArtifactVersion) (noop : Bool)
    (fs : List String) : DeleteResult :=
  match self.inodes with
  | [] => { bucket := self, fs := fs, raised := false }
  | (_, g) :: rest =>
    { bucket := { self with inodes := rest }, fs := g.delete noop fs, raised := true }

/-- Truthiness of `next((ver for ver in self.keys() if ver <= artifact.version), None)`:
`None` and the empty string are falsy, any other found key is truthy. -/
def foundKeyTruthy : Option String → Bool
  | some s => s ≠ ""
  | none => false

/-- Models `ArtifactName.add_artifact(artifact, onlyifnewer)`. The version
keys are the artifacts' VersionKey values; the key-to-key order `ver <=
artifact.version` is the repository comparator `cmpfullver` (the store
classes that supply the key objects are not among the sources; per the spec
VersionKeys compare under Version Ordering). Note the source's gate: it
rejects when some existing key is LESS than or equal to the new version. -/
def ArtifactName.add_artifact (self : ArtifactName) (artifact : Artifact)
    (onlyifnewer : Bool) : Bool × ArtifactName :=
  if onlyifnewer &&
      (alMem artifact.ver_rel self.versions ||
        foundKeyTruthy
          ((self.versions.map Prod.fst).find?
            (fun ver => cmpfullver ver artifact.version ≤ 0))) then
    (false, self)
  else
    let versions1 :=
      if alMem artifact.version self.versions then self.versions
      else self.versions ++ [(artifact.version, ⟨artifact.version, []⟩)]
    match alLookup artifact.version versions1 with
    | none => (false, { self with versions := versions1 })
    | some bucket =>
      let r := bucket.add_artifact artifact
      (r.1, { self with versions := alUpdate artifact.version (fun _ => r.2) versions1 })

/-- Insert a key into a list that is sorted in descending `cmpfullver`
order, keeping it sorted. -/
def insertDesc (x : String) : List String → List String
  | [] => [x]
  | y :: ys => if 0 ≤ cmpfullver x y then x :: y :: ys else y :: insertDesc x ys

/-- Models `sorted_list.sort(reverse=True)`: sort the keys in descending
comparator order. -/
def sortDesc (l : List String) : List String :=
  l.foldr insertDesc []

/-- Models `ArtifactName.get_latest`: `None` on an empty index, else a
fresh dict holding the first `num` (all, when `num` is 0 or exceeds the
count) keys of the descending key sort, each mapped to its bucket.

The returned `latest` object is a fresh Python 2 dict; callers consume it
through `.values()`, i.e. in hash-table slot order. For a small dict whose
keys land on distinct slots, that order is a function of the key hashes
alone (slot `hash & mask`), independent of the descending insertion
sequence of the loop `latest[sorted_list[pos]] = ...`, so building the
dict from the sorted list confers no iteration order on the result. The
model therefore returns the selected entries in the parent dict's relative
key order — the same stand-in this embedding uses for the unspecified hash
order of `self` itself; the descending `sorted_list` determines only which
keys are selected. -/
def ArtifactName.get_latest (self : ArtifactName) (num : Nat) :
    Option (List (String × ArtifactVersion)) :=
  if self.versions.isEmpty then none
  else
    let num1 := if num = 0 then self.versions.length else num
    let sorted_list := sortDesc (self.versions.map Prod.fst)
    let num2 := if sorted_list.length < num1 then sorted_list.length else num1
    some (self.versions.filter (fun p => p.1 ∈ sorted_list.take num2))

/-- Models `ArtifactName.delete_version`: when the version is present, call
`delete_inode` for every inode key (over `self[version].keys()`, a list
copy, so the iteration is safe), then pop the version — unconditionally,
also under `noop`. -/
def ArtifactName.delete_version (self : ArtifactName) (version : String)
    (noop : Bool) (fs : List String) : ArtifactName × List String :=
  if alMem version self.versions then
    let bucket := (alLookup version self.versions).getD ⟨version, []⟩
    let r :=
      (bucket.inodes.map Prod.fst).foldl
        (fun (acc : ArtifactVersion × List String) inode =>
          acc.1.delete_inode inode noop acc.2)
        (bucket, fs)
    ({ self with versions := alErase version self.versions }, r.2)
  else (self, fs)

/-- Models `ArtifactName.get_artifacts`: when `latest` is non-zero restrict
to `get_latest(latest).values()`, else all buckets, and concatenate each
bucket's filtered artifacts. (On an empty index with `latest` non-zero the
source would raise on `None.values()`; the model returns the empty list,
a case no settled claim exercises.) -/
def ArtifactName.get_artifacts (self : ArtifactName)
    (regmatch : Option (String → Bool)) (fmatch : Option (Artifact → Bool))
    (latest : Nat) : List Artifact :=
  let versions :=
    if latest ≠ 0 then ((self.get_latest latest).getD []).map Prod.snd
    else self.versions.map Prod.snd
  (versions.map (fun v => v.get_artifacts regmatch fmatch)).flatten

/-- Models `ArtifactList.add_pkg`: skip (returning Python `None`, modelled
as `none`) when the artifact's name is `None`; else create the name index
if needed and return `add_artifact`'s result. -/
def ArtifactList.add_pkg (self : ArtifactList) (artifact : Artifact)
    (onlyifnewer : Bool) : Option Bool × ArtifactList :=
  match artifact.name with
  | none => (none, self)
  | some n =>
    let names1 :=
      if alMem n self.names then self.names
      else self.names ++ [(n, ⟨n, []⟩)]
    match alLookup n names1 with
    | none => (none, { self with names := names1 })
    | some idx =>
      let r := idx.add_artifact artifact onlyifnewer
      (some r.1, { self with names := alUpdate n (fun _ => r.2) names1 })

/-- Final step of `ArtifactList.delete_version` after the nested deletion
produced the updated index `r.1` and filesystem `r.2`: store the updated
index back, popping the name when its index became empty
(`if not self[art_name]: self.pop(art_name)`). -/
def ArtifactList.delete_version_core (self : ArtifactList) (art_name : String)
    (r : ArtifactName × List String) : ArtifactList × List String :=
  if r.1.versions = [] then
    ({ self with names := alErase art_name self.names }, r.2)
  else
    ({ self with names := alUpdate art_name (fun _ => r.1) self.names }, r.2)

/-- Models `ArtifactList.delete_version`: delete the version inside the
name's index when both levels exist (the nested call uses the default
`noop=False`), then pop the name if its index became empty. -/
def ArtifactList.delete_version (self : ArtifactList) (art_name art_version : String)
    (fs : List String) : ArtifactList × List String :=
  match alLookup art_name self.names with
  | none => (self, fs)
  | some idx =>
    self.delete_version_core art_name
      (if alMem art_version idx.versions then idx.delete_version art_version false fs
       else (idx, fs))

/-- Models `ArtifactList.get_artifacts`: concatenate every name's filtered
artifacts. -/
def ArtifactList.get_artifacts (self : ArtifactList)
    (regmatch : Option (String → Bool)) (fmatch : Option (Artifact → Bool))
    (latest : Nat) : List Artifact :=
  ((self.names.map Prod.snd).map
    (fun nm => nm.get_artifacts regmatch fmatch latest)).flatten

/-- Models the `--keep-latest` control flow of `cmd.do_add`: the result is
(exit code, whether `repo.delete_old` is invoked). The source returns 1
before doing anything when `keep_latest < 0`; it runs retention only when
`keep_latest > 0`; with the default 0 it adds sources, saves and exits 0
without retention. -/
def do_add (keep_latest : Int) : Int × Bool :=
  if keep_latest < 0 then (1, false)
  else if 0 < keep_latest then (0, true)
  else (0, false)

/-- Models the `--keep` control flow of `cmd.do_remove_old`: returns 1
without invoking `repo.delete_old` when `keep <= 0`; otherwise runs
retention and falls off the end (Python returns `None`, and
`sys.exit(None)` exits with status 0). -/
def do_remove_old (keep : Int) : Int × Bool :=
  if keep ≤ 0 then (1, false) else (0, true)

/-- Helper for concrete test states: an artifact whose `version` and
`ver_rel` are the given version-release string. -/
def mkArtifact (nm ver : String) (ino : Nat) (p : String) : Artifact :=
  { path := p, name := some nm, version := ver, ver_rel := ver, inode := ino }

/-- Concrete artifact of version 1.0-1 (dry-run scenario). -/
def artOld : Artifact := mkArtifact "n" "1.0-1" 1 "repo/n/1.0-1/n-1.0-1.rpm"

/-- Concrete artifact of version 2.0-1 (dry-run scenario). -/
def artNew : Artifact := mkArtifact "n" "2.0-1" 2 "repo/n/2.0-1/n-2.0-1.rpm"

/-- Filesystem for the dry-run scenario: both artifact files exist. -/
def fsC1 : List String := ["repo/n/1.0-1/n-1.0-1.rpm", "repo/n/2.0-1/n-2.0-1.rpm"]

/-- Name index holding versions 1.0-1 and 2.0-1 (dry-run scenario). -/
def idxC1 : ArtifactName :=
  ⟨"n", [("1.0-1", ⟨"1.0-1", [(1, ⟨1, [artOld]⟩)]⟩),
         ("2.0-1", ⟨"2.0-1", [(2, ⟨2, [artNew]⟩)]⟩)]⟩

/-- Artifact of version 1.0 (onlyifnewer scenario). -/
def artV10 : Artifact := mkArtifact "n" "1.0" 1 "p10"

/-- Artifact of version 2.0 (onlyifnewer scenario). -/
def artV20 : Artifact := mkArtifact "n" "2.0" 2 "p20"

/-- Artifact of version 3.0, strictly newer than the indexed ones. -/
def artV30 : Artifact := mkArtifact "n" "3.0" 3 "p30"

/-- Name index built through `add_artifact` with versions 1.0 and 2.0. -/
def idxC2 : ArtifactName :=
  ((((⟨"n", []⟩ : ArtifactName).add_artifact artV10 false).2).add_artifact artV20 false).2

/-- First inode group (bucket deleteAll scenario). -/
def artG1 : Artifact := mkArtifact "g" "1.0-1" 11 "repo/g/a"

/-- Second inode group (bucket deleteAll scenario). -/
def artG2 : Artifact := mkArtifact "g" "1.0-1" 12 "repo/g/b"

/-- Filesystem for the bucket deleteAll scenario. -/
def fsC6 : List String := ["repo/g/a", "repo/g/b"]

/-- Version bucket holding two content-identity groups. -/
def bktC6 : ArtifactVersion := ⟨"1.0-1", [(11, ⟨11, [artG1]⟩), (12, ⟨12, [artG2]⟩)]⟩

/-- Artifact for the cascade scenario. -/
def artM : Artifact := mkArtifact "m" "1.0-1" 5 "repo/m/x"

/-- Catalog with one name holding one version (cascade scenario). -/
def catC9 : ArtifactList :=
  ⟨"base", [("m", ⟨"m", [("1.0-1", ⟨"1.0-1", [(5, ⟨5, [artM]⟩)]⟩)]⟩)]⟩

/-- An artifact whose derived name is Python `None`. -/
def artNoName : Artifact :=
  { path := "q", name := none, version := "1.0", ver_rel := "1.0", inode := 9 }

/-- An artifact with a present name. -/
def artWName : Artifact := mkArtifact "w" "1.0" 4 "repo/w/y"

/-- An empty catalog. -/
def catC10 : ArtifactList := ⟨"base", []⟩

/-- Bucket of version 1.9-1 for the get_latest order scenario. -/
def bkt19 : ArtifactVersion :=
  ⟨"1.9-1", [(21, ⟨21, [mkArtifact "pkg7" "1.9-1" 21 "repo/pkg7/a19"]⟩)]⟩

/-- Bucket of version 1.10-1 for the get_latest order scenario. -/
def bkt110 : ArtifactVersion :=
  ⟨"1.10-1", [(22, ⟨22, [mkArtifact "pkg7" "1.10-1" 22 "repo/pkg7/a110"]⟩)]⟩

/-- Name index over versions 1.9-1 and 1.10-1, listed in the true CPython 2
hash order of its keys: the 64-bit CPython 2 string hashes are
12015381899638187489 for "1.9-1" and 12512887727752171286 for "1.10-1", so
in a fresh size-8 table "1.9-1" occupies slot 1 and "1.10-1" slot 6 (no
collision), and dict iteration yields "1.9-1" first regardless of the
insertion sequence. -/
def idxC7 : ArtifactName := ⟨"pkg7", [("1.9-1", bkt19), ("1.10-1", bkt110)]⟩

/-- Name index over versions 3.0-1 (CPython 2 hash slot 2) and 1.0-1
(slot 4), listed in that hash order; exercises the get_latest selection
properties. -/
def idxW7 : ArtifactName :=
  ⟨"w7", [("3.0-1", ⟨"3.0-1", [(31, ⟨31, [mkArtifact "w7" "3.0-1" 31 "repo/w7/a30"]⟩)]⟩),
          ("1.0-1", ⟨"1.0-1", [(32, ⟨32, [mkArtifact "w7" "1.0-1" 32 "repo/w7/a10"]⟩)]⟩)]⟩

/-- The invariant of claim C9: every Version Bucket reachable from the
catalog is non-empty. -/
def CatalogBucketsNonEmpty (cat : ArtifactList) : Prop :=
  ∀ p ∈ cat.names, ∀ q ∈ p.2.versions, q.2.inodes ≠ []

theorem cmpOfLess_eq_lt_iff {α : Type} [LinearOrder α] {x y : α} :
    cmpOfLess x y = .lt ↔ x < y := by
  unfold cmpOfLess
  split_ifs with h1 h2 <;> simp_all

theorem cmpOfLess_eq_eq_iff {α : Type} [LinearOrder α] {x y : α} :
    cmpOfLess x y = .eq ↔ x = y := by
  unfold cmpOfLess
  split_ifs with h1 h2 <;> simp_all
  exact ne_of_lt h1

theorem cmpOfLess_swap {α : Type} [LinearOrder α] (x y : α) :
    (cmpOfLess x y).swap = cmpOfLess y x := by
  unfold cmpOfLess
  rcases lt_trichotomy x y with h | h | h
  · rw [if_pos h, if_neg (asymm h), if_neg (ne_of_gt h)]; rfl
  · subst h
    rw [if_neg (lt_irrefl x), if_pos rfl]; rfl
  · rw [if_neg (asymm h), if_neg (ne_of_gt h), if_pos h]; rfl

theorem cmpOfLess_lt_trans {α : Type} [LinearOrder α] {x y z : α}
    (h1 : cmpOfLess x y = .lt) (h2 : cmpOfLess y z = .lt) : cmpOfLess x z = .lt :=
  cmpOfLess_eq_lt_iff.2 (lt_trans (cmpOfLess_eq_lt_iff.1 h1) (cmpOfLess_eq_lt_iff.1 h2))

theorem listCmp_eq_iff {α : Type} {f : α → α → Ordering}
    (hf : ∀ x y, f x y = .eq ↔ x = y) :
    ∀ l1 l2 : List α, listCmp f l1 l2 = .eq ↔ l1 = l2
  | [], [] => by simp [listCmp]
  | [], _ :: _ => by simp [listCmp]
  | _ :: _, [] => by simp [listCmp]
  | x :: xs, y :: ys => by
    simp only [listCmp]
    cases hxy : f x y with
    | eq =>
      have := (hf x y).1 hxy
      subst this
      simpa using listCmp_eq_iff hf xs ys
    | lt =>
      simp only [List.cons.injEq]
      constructor
      · intro hc; cases hc
      · rintro ⟨rfl, -⟩
        rw [(hf x x).2 rfl] at hxy; cases hxy
    | gt =>
      simp only [List.cons.injEq]
      constructor
      · intro hc; cases hc
      · rintro ⟨rfl, -⟩
        rw [(hf x x).2 rfl] at hxy; cases hxy

theorem listCmp_swap {α : Type} {f : α → α → Ordering}
    (hf : ∀ x y, (f x y).swap = f y x) :
    ∀ l1 l2 : List α, (listCmp f l1 l2).swap = listCmp f l2 l1
  | [], [] => rfl
  | [], _ :: _ => rfl
  | _ :: _, [] => rfl
  | x :: xs, y :: ys => by
    simp only [listCmp]
    cases hxy : f x y with
    | eq =>
      have hyx : f y x = .eq := by rw [← hf x y, hxy]; rfl
      rw [hyx]
      exact listCmp_swap hf xs ys
    | lt =>
      have hyx : f y x = .gt := by rw [← hf x y, hxy]; rfl
      rw [hyx]; rfl
    | gt =>
      have hyx : f y x = .lt := by rw [← hf x y, hxy]; rfl
      rw [hyx]; rfl

theorem listCmp_lt_trans {α : Type} {f : α → α → Ordering}
    (hfeq : ∀ x y, f x y = .eq ↔ x = y)
    (hflt : ∀ x y z, f x y = .lt → f y z = .lt → f x z = .lt) :
    ∀ l1 l2 l3 : List α, listCmp f l1 l2 = .lt → listCmp f l2 l3 = .lt →
      listCmp f l1 l3 = .lt
  | [], [], _, h12, _ => by simp [listCmp] at h12
  | [], _ :: _, [], _, h23 => by simp [listCmp] at h23
  | [], _ :: _, _ :: _, _, _ => by simp [listCmp]
  | _ :: _, [], _, h12, _ => by simp [listCmp] at h12
  | _ :: _, _ :: _, [], _, h23 => by simp [listCmp] at h23
  | x :: xs, y :: ys, z :: zs, h12, h23 => by
    simp only [listCmp] at h12 h23 ⊢
    cases hxy : f x y with
    | lt =>
      cases hyz : f y z with
      | lt => rw [hflt x y z hxy hyz]
      | eq =>
        have := (hfeq y z).1 hyz
        subst this
        rw [hxy]
      | gt => rw [hyz] at h23; cases h23
    | eq =>
      have := (hfeq x y).1 hxy
      subst this
      rw [hxy] at h12
      cases hxz : f x z with
      | lt => rfl
      | eq =>
        have := (hfeq x z).1 hxz
        subst this
        rw [hxz] at h23
        exact listCmp_lt_trans hfeq hflt xs ys zs h12 h23
      | gt => rw [hxz] at h23; cases h23
    | gt => rw [hxy] at h12; cases h12

theorem pySegCmp_eq_iff : ∀ x y : PySeg, pySegCmp x y = .eq ↔ x = y
  | .int a, .int b => by
    simp only [pySegCmp, PySeg.int.injEq]
    exact cmpOfLess_eq_eq_iff
  | .int _, .str _ => by simp [pySegCmp]
  | .str _, .int _ => by simp [pySegCmp]
  | .str a, .str b => by
    simp only [pySegCmp, PySeg.str.injEq]
    exact listCmp_eq_iff (fun x y => cmpOfLess_eq_eq_iff) a b

theorem pySegCmp_swap : ∀ x y : PySeg, (pySegCmp x y).swap = pySegCmp y x
  | .int a, .int b => cmpOfLess_swap a b
  | .int _, .str _ => rfl
  | .str _, .int _ => rfl
  | .str a, .str b => listCmp_swap cmpOfLess_swap a b

theorem pySegCmp_lt_trans :
    ∀ x y z : PySeg, pySegCmp x y = .lt → pySegCmp y z = .lt → pySegCmp x z = .lt
  | .int _, .int _, .int _, h1, h2 => cmpOfLess_lt_trans h1 h2
  | .int _, .int _, .str _, _, _ => rfl
  | .int _, .str _, .int _, _, h2 => by cases h2
  | .int _, .str _, .str _, _, _ => rfl
  | .str _, .int _, _, h1, _ => by cases h1
  | .str _, .str _, .int _, _, h2 => by cases h2
  | .str a, .str b, .str c, h1, h2 => by
    simp only [pySegCmp] at h1 h2 ⊢
    exact listCmp_lt_trans (fun x y => cmpOfLess_eq_eq_iff)
      (fun x y z hx hy => cmpOfLess_lt_trans hx hy) a b c h1 h2

theorem segsCmp_eq_iff (l1 l2 : List PySeg) : segsCmp l1 l2 = .eq ↔ l1 = l2 :=
  listCmp_eq_iff pySegCmp_eq_iff l1 l2

theorem segsCmp_refl (l : List PySeg) : segsCmp l l = .eq :=
  (segsCmp_eq_iff l l).2 rfl

theorem segsCmp_swap (l1 l2 : List PySeg) : (segsCmp l1 l2).swap = segsCmp l2 l1 :=
  listCmp_swap pySegCmp_swap l1 l2

theorem segsCmp_lt_trans {l1 l2 l3 : List PySeg}
    (h1 : segsCmp l1 l2 = .lt) (h2 : segsCmp l2 l3 = .lt) : segsCmp l1 l3 = .lt :=
  listCmp_lt_trans pySegCmp_eq_iff pySegCmp_lt_trans l1 l2 l3 h1 h2

instance : Batteries.TransCmp segsCmp where
  symm l1 l2 := segsCmp_swap l1 l2
  le_trans {l1 l2 l3} h12 h23 := by
    intro hgt
    have h31 : segsCmp l3 l1 = .lt := by
      rw [← segsCmp_swap l1 l3, hgt]; rfl
    cases h12' : segsCmp l1 l2 with
    | gt => exact h12 h12'
    | eq =>
      have he := (segsCmp_eq_iff l1 l2).1 h12'
      subst he
      exact h23 hgt
    | lt =>
      cases h23' : segsCmp l2 l3 with
      | gt => exact h23 h23'
      | eq =>
        have he := (segsCmp_eq_iff l2 l3).1 h23'
        subst he
        have hc := segsCmp_lt_trans h12' h31
        rw [segsCmp_refl] at hc
        cases hc
      | lt =>
        have h13 := segsCmp_lt_trans h12' h23'
        have hc := segsCmp_lt_trans h13 h31
        rw [segsCmp_refl] at hc
        cases hc

instance : Batteries.TransCmp fullCmpO :=
  inferInstanceAs (Batteries.TransCmp
    (compareLex (Ordering.byKey fullKey1 segsCmp) (Ordering.byKey fullKey2 segsCmp)))

/-- The faithful `Int`-valued `cmpfullver` agrees with the `Ordering`-valued
comparator `fullCmpO`. -/
theorem cmpfullver_eq_orderingToInt (a b : String) :
    cmpfullver a b = orderingToInt (fullCmpO a b) := by
  unfold cmpfullver fullCmpO compareLex Ordering.byKey fullKey1 fullKey2 segsCmp cmpverL
  cases h : listCmp pySegCmp (verSegs (splitMax1 '-' a.data).1)
      (verSegs (splitMax1 '-' b.data).1) <;>
    simp [h, orderingToInt, Ordering.then]

theorem orderingToInt_swap (o : Ordering) : orderingToInt o.swap = - orderingToInt o := by
  cases o <;> rfl

theorem fullCmpO_swap (a b : String) : (fullCmpO a b).swap = fullCmpO b a :=
  Batteries.OrientedCmp.symm a b

theorem orderingToInt_neg_iff (o : Ordering) : orderingToInt o < 0 ↔ o = .lt := by
  cases o <;> decide

theorem orderingToInt_nonneg_iff (o : Ordering) : 0 ≤ orderingToInt o ↔ o ≠ .lt := by
  cases o <;> decide

/-- C3. The claim states that when the first differing aligned segment pair
mixes a numeric and a non-numeric (or empty) segment, the comparator orders
the non-numeric/empty segment below the numeric one. The code does the
opposite: `utils.cmpver` compares the `tryint`-converted segments with
Python 2 semantics, under which every `int` sorts below every `str`, so the
numeric segment is the smaller one. At `cmpver("1.a", "1.0")` the first
differing aligned pair is the non-numeric `"a"` against the numeric `0`;
the claim requires a negative result, the code returns 1. At
`cmpver("1", "")` the pair is the numeric `1` against the empty segment;
the claim requires a positive result, the code returns -1. -/
theorem c3_mixed_segment_numeric_below_string :
    cmpver "1.a" "1.0" = 1 ∧ cmpver "1" "" = -1 := by decide

/-- C4. Evaluation of `utils.cmpfullver` on the spec's example chain. The
first two links and the numeric-segment example hold, but the last link is
inverted: `cmpfullver "1.0-1.el7" "1.0-1.20170103101841.centos" = 1`, i.e.
the code orders `1.0-1.el7` strictly above `1.0-1.20170103101841.centos`,
because Python 2 sorts the int segment 20170103101841 below the str segment
`el7`. The claim (and the repository's own RPM version tests,
tests/unit/test_RPMStore.py) require this pair to be ordered the other way
around. -/
theorem c4_example_chain_evaluation :
    cmpfullver "0.0-1.el7" "0.1-1.el7" = -1 ∧
    cmpfullver "0.1-1.el7" "1.0-1.el7" = -1 ∧
    cmpfullver "1.0-1.el7" "1.0-1.20170103101841.centos" = 1 ∧
    cmpfullver "1.9-1" "1.10-1" = -1 := by decide

/-- C5. `utils.cmpfullver` is a strict total order on version-release
strings (as a comparator): it is sign-antisymmetric, transitive on the
strict part, and for every pair exactly one of negative / zero / positive
holds. -/
theorem c5_cmpfullver_strict_total_order :
    (∀ a b : String, cmpfullver a b = - cmpfullver b a) ∧
    (∀ a b c : String, cmpfullver a b < 0 → cmpfullver b c < 0 → cmpfullver a c < 0) ∧
    (∀ a b : String,
      (cmpfullver a b < 0 ∧ cmpfullver a b ≠ 0 ∧ ¬ 0 < cmpfullver a b) ∨
      (¬ cmpfullver a b < 0 ∧ cmpfullver a b = 0 ∧ ¬ 0 < cmpfullver a b) ∨
      (¬ cmpfullver a b < 0 ∧ cmpfullver a b ≠ 0 ∧ 0 < cmpfullver a b)) := by
  refine ⟨fun a b => ?_, fun a b c h1 h2 => ?_, fun a b => ?_⟩
  · rw [cmpfullver_eq_orderingToInt, cmpfullver_eq_orderingToInt,
      ← fullCmpO_swap b a, orderingToInt_swap]
  · rw [cmpfullver_eq_orderingToInt, orderingToInt_neg_iff] at h1 h2 ⊢
    exact Batteries.TransCmp.lt_trans h1 h2
  · rw [cmpfullver_eq_orderingToInt]
    cases fullCmpO a b <;> decide

/-- Witness for C5 at concrete inputs: the transitivity component applied
to `1.0-1 < 2.0-1 < 3.0-1`. -/
theorem c5_witness :
    cmpfullver "1.0-1" "2.0-1" < 0 ∧ cmpfullver "2.0-1" "3.0-1" < 0 ∧
      cmpfullver "1.0-1" "3.0-1" < 0 :=
  ⟨by decide, by decide,
    c5_cmpfullver_strict_total_order.2.1 "1.0-1" "2.0-1" "3.0-1" (by decide) (by decide)⟩

theorem cmpfullver_ge_total (a b : String) : 0 ≤ cmpfullver a b ∨ 0 ≤ cmpfullver b a := by
  rw [cmpfullver_eq_orderingToInt, cmpfullver_eq_orderingToInt,
    orderingToInt_nonneg_iff, orderingToInt_nonneg_iff]
  have hsw := fullCmpO_swap a b
  cases h : fullCmpO a b with
  | lt =>
    right
    rw [h] at hsw
    rw [← hsw]
    decide
  | eq => left; simp [h]
  | gt => left; simp [h]

theorem cmpfullver_ge_trans {a b c : String}
    (h1 : 0 ≤ cmpfullver a b) (h2 : 0 ≤ cmpfullver b c) : 0 ≤ cmpfullver a c := by
  rw [cmpfullver_eq_orderingToInt, orderingToInt_nonneg_iff] at h1 h2 ⊢
  exact Batteries.TransCmp.ge_trans h1 h2

theorem insertDesc_perm (x : String) :
    ∀ l : List String, (insertDesc x l).Perm (x :: l)
  | [] => List.Perm.refl _
  | y :: ys => by
    unfold insertDesc
    split_ifs with h
    · exact List.Perm.refl _
    · exact ((insertDesc_perm x ys).cons y).trans (List.Perm.swap x y ys)

theorem insertDesc_pairwise (x : String) :
    ∀ {l : List String}, l.Pairwise (fun a b => 0 ≤ cmpfullver a b) →
      (insertDesc x l).Pairwise (fun a b => 0 ≤ cmpfullver a b)
  | [], _ => by simp [insertDesc]
  | y :: ys, h => by
    obtain ⟨hy, hys⟩ := List.pairwise_cons.mp h
    unfold insertDesc
    split_ifs with hxy
    · refine List.pairwise_cons.mpr ⟨?_, h⟩
      intro z hz
      rcases List.mem_cons.mp hz with rfl | hz'
      · exact hxy
      · exact cmpfullver_ge_trans hxy (hy z hz')
    · have hyx : 0 ≤ cmpfullver y x := (cmpfullver_ge_total x y).resolve_left hxy
      refine List.pairwise_cons.mpr ⟨?_, insertDesc_pairwise x hys⟩
      intro z hz
      rcases List.mem_cons.mp ((insertDesc_perm x ys).mem_iff.mp hz) with rfl | hz'
      · exact hyx
      · exact hy z hz'

theorem sortDesc_perm : ∀ l : List String, (sortDesc l).Perm l
  | [] => List.Perm.refl _
  | x :: xs => (insertDesc_perm x _).trans ((sortDesc_perm xs).cons x)

theorem sortDesc_pairwise :
    ∀ l : List String, (sortDesc l).Pairwise (fun a b => 0 ≤ cmpfullver a b)
  | [] => List.Pairwise.nil
  | x :: xs => insertDesc_pairwise x (sortDesc_pairwise xs)

theorem alMem_iff_mem_keys {κ β : Type} [DecidableEq κ] (k : κ) :
    ∀ l : List (κ × β), alMem k l = true ↔ k ∈ l.map Prod.fst
  | [] => by simp [alMem, alLookup]
  | p :: rest => by
    by_cases h : p.1 = k
    · simp [alMem, alLookup, h]
    · have ih := alMem_iff_mem_keys k rest
      unfold alMem at ih ⊢
      rw [alLookup, if_neg h, ih]
      simp only [List.map_cons, List.mem_cons]
      exact (or_iff_right (fun he => h he.symm)).symm

theorem alLookup_mem {κ β : Type} [DecidableEq κ] {k : κ} {v : β} :
    ∀ {l : List (κ × β)}, alLookup k l = some v → (k, v) ∈ l
  | [], h => by cases h
  | p :: rest, h => by
    rw [alLookup] at h
    split_ifs at h with hp
    · injection h with hv
      have hpv : p = (k, v) := by
        rw [Prod.ext_iff]
        exact ⟨hp, hv⟩
      rw [← hpv]
      exact List.mem_cons_self p rest
    · exact List.mem_cons_of_mem _ (alLookup_mem h)

theorem filterMap_alLookup_map_fst {κ β : Type} [DecidableEq κ] (vs : List (κ × β)) :
    ∀ ks : List κ, (∀ k ∈ ks, (alLookup k vs).isSome) →
      (ks.filterMap (fun k => (alLookup k vs).map (fun b => (k, b)))).map Prod.fst = ks
  | [], _ => rfl
  | k :: ks, h => by
    obtain ⟨b, hb⟩ := Option.isSome_iff_exists.mp (h k (List.mem_cons_self k ks))
    simp only [List.filterMap_cons, hb, Option.map_some', List.map_cons]
    rw [filterMap_alLookup_map_fst vs ks (fun k hk => h k (List.mem_cons_of_mem _ hk))]

/-- Closed form of `ArtifactName.get_latest` on a non-empty index. -/
theorem get_latest_eq (nm : ArtifactName) (num : Nat) (h : nm.versions ≠ []) :
    nm.get_latest num = some (nm.versions.filter (fun p =>
      p.1 ∈ (sortDesc (nm.versions.map Prod.fst)).take
        (if (sortDesc (nm.versions.map Prod.fst)).length <
            (if num = 0 then nm.versions.length else num) then
          (sortDesc (nm.versions.map Prod.fst)).length
        else (if num = 0 then nm.versions.length else num)))) := by
  have hne : ¬ (nm.versions.isEmpty = true) := fun hc => h (List.isEmpty_iff.mp hc)
  unfold ArtifactName.get_latest
  rw [if_neg hne]

/-- C7 (amended). `ArtifactName.get_latest` returns, on a non-empty index,
a dict of buckets that are entries of the index, selected as the
comparator-greatest keys: every omitted key is below (or tied with) every
returned key, and — under the dict invariant of unique keys — exactly
`min(n, count)` buckets are returned (all of them when `n = 0`). The
returned mapping carries no iteration-order guarantee (see
`c7_get_latest_counterexample`). On an index holding no versions it
returns the empty result (Python `None`, modelled as `none`). -/
theorem c7_get_latest_spec (nm : ArtifactName) (num : Nat) :
    (nm.versions = [] → nm.get_latest num = none) ∧
    (nm.versions ≠ [] → ∃ l, nm.get_latest num = some l ∧
      (∀ p ∈ l, p ∈ nm.versions) ∧
      (∀ k ∈ nm.versions.map Prod.fst, k ∉ l.map Prod.fst →
        ∀ k' ∈ l.map Prod.fst, 0 ≤ cmpfullver k' k) ∧
      ((nm.versions.map Prod.fst).Nodup →
        l.length = min (if num = 0 then nm.versions.length else num)
          nm.versions.length)) := by
  constructor
  · intro h
    unfold ArtifactName.get_latest
    rw [if_pos]
    rw [h]; rfl
  · intro h
    rw [get_latest_eq nm num h]
    set ks := nm.versions.map Prod.fst with hks
    set sorted := sortDesc ks with hsorted
    set num2 := (if sorted.length < (if num = 0 then nm.versions.length else num) then
      sorted.length else (if num = 0 then nm.versions.length else num)) with hnum2
    set l := nm.versions.filter (fun p => p.1 ∈ sorted.take num2) with hl
    have hkey : ∀ k : String, k ∈ l.map Prod.fst ↔ k ∈ ks ∧ k ∈ sorted.take num2 := by
      intro k
      constructor
      · intro hkm
        obtain ⟨p, hp, hpk⟩ := List.mem_map.mp hkm
        obtain ⟨hpv, hpt⟩ := List.mem_filter.mp (hl ▸ hp)
        subst hpk
        refine ⟨?_, by simpa using hpt⟩
        rw [hks]
        exact List.mem_map.mpr ⟨p, hpv, rfl⟩
      · rintro ⟨hkk, hkt⟩
        rw [hks] at hkk
        obtain ⟨p, hpv, hpk⟩ := List.mem_map.mp hkk
        refine List.mem_map.mpr ⟨p, ?_, hpk⟩
        rw [hl]
        refine List.mem_filter.mpr ⟨hpv, ?_⟩
        simpa [hpk] using hkt
    have hslen : sorted.length = nm.versions.length := by
      rw [hsorted, (sortDesc_perm ks).length_eq, hks, List.length_map]
    refine ⟨l, rfl, ?_, ?_, ?_⟩
    · intro p hp
      exact (List.mem_filter.mp (hl ▸ hp)).1
    · intro k hk hknot k' hk'
      have hkt : k ∉ sorted.take num2 := fun hc => hknot ((hkey k).mpr ⟨hk, hc⟩)
      have hk't : k' ∈ sorted.take num2 := ((hkey k').mp hk').2
      have hksort : k ∈ sorted := (sortDesc_perm ks).mem_iff.mpr hk
      have hpw := sortDesc_pairwise ks
      rw [← hsorted, ← List.take_append_drop num2 sorted] at hpw
      have hdrop : k ∈ sorted.drop num2 := by
        rcases List.mem_append.mp ((List.take_append_drop num2 sorted).symm ▸ hksort) with
          hc | hc
        · exact absurd hc hkt
        · exact hc
      exact (List.pairwise_append.mp hpw).2.2 k' hk't k hdrop
    · intro hnd
      have hndsorted : sorted.Nodup := ((sortDesc_perm ks).nodup_iff).mpr hnd
      have hndtake : (sorted.take num2).Nodup :=
        hndsorted.sublist (List.take_sublist num2 sorted)
      have hndl : (l.map Prod.fst).Nodup := by
        refine hnd.sublist ?_
        rw [hl, hks]
        exact (List.filter_sublist _).map Prod.fst
      have hiff : ∀ k, k ∈ l.map Prod.fst ↔ k ∈ sorted.take num2 := by
        intro k
        rw [hkey k]
        constructor
        · exact And.right
        · intro hkt
          exact ⟨(sortDesc_perm ks).mem_iff.mp (List.take_subset _ _ hkt), hkt⟩
      have hperm : (l.map Prod.fst).Perm (sorted.take num2) :=
        (List.perm_ext_iff_of_nodup hndl hndtake).mpr hiff
      have hlen1 : (l.map Prod.fst).length = (sorted.take num2).length := hperm.length_eq
      have hlen2 : l.length = (l.map Prod.fst).length := (List.length_map _ _).symm
      rw [hlen2, hlen1, List.length_take, hnum2, hslen]
      split_ifs <;> omega

/-- Counterexample refuting C7 as stated: on the index over versions 1.9-1
and 1.10-1, `get_latest(0)` ("all buckets, descending") returns the
buckets in the dict's iteration order, whose first key 1.9-1 is strictly
BELOW the second key 1.10-1 under the comparator — the returned sequence
is ascending, not descending. The modelled order is the true CPython 2
order for these keys (slots 1 and 6 of a fresh size-8 table, see
`idxC7`); the program's `latest` dict gives no descending-order
guarantee. -/
theorem c7_get_latest_counterexample :
    idxC7.get_latest 0 = some [("1.9-1", bkt19), ("1.10-1", bkt110)] ∧
    cmpfullver "1.9-1" "1.10-1" < 0 := by decide

/-- Witness for C7's amended claim on `idxW7` with n = 1. -/
theorem c7_witness :
    ∃ l, idxW7.get_latest 1 = some l ∧
      (∀ p ∈ l, p ∈ idxW7.versions) ∧
      (∀ k ∈ idxW7.versions.map Prod.fst, k ∉ l.map Prod.fst →
        ∀ k' ∈ l.map Prod.fst, 0 ≤ cmpfullver k' k) ∧
      ((idxW7.versions.map Prod.fst).Nodup →
        l.length = min (if 1 = 0 then idxW7.versions.length else 1)
          idxW7.versions.length) :=
  (c7_get_latest_spec idxW7 1).2 (by decide)

/-- C1. Dry-run is not pure on the in-memory catalog:
`ArtifactName.delete_version` with `noop=True` performs no filesystem
mutation (first conjunct — this half of the claim holds), but it still pops
the deleted inode groups and the version from the in-memory index
(`ArtifactVersion.delete_inode` and `ArtifactName.delete_version` pop
unconditionally), so a subsequent `get_artifacts` query no longer returns
the artifacts of the dry-run-deleted version. -/
theorem c1_noop_delete_version_not_pure :
    (idxC1.delete_version "1.0-1" true fsC1).2 = fsC1 ∧
    artOld ∈ idxC1.get_artifacts none none 0 ∧
    artOld ∉ (idxC1.delete_version "1.0-1" true fsC1).1.get_artifacts none none 0 := by
  decide

/-- C2. The `onlyifnewer` gate is inverted: with versions 1.0 and 2.0
indexed, every indexed version is strictly below 3.0 under the comparator
(second conjunct), so the claim (and the spec) require the 3.0 artifact to
be admitted; but `ArtifactName.add_artifact` rejects it (returns `False`
and mutates nothing) because its gate fires when an existing key is less
than or equal to the new version. -/
theorem c2_onlyifnewer_rejects_strictly_newer :
    idxC2.versions.map Prod.fst = ["1.0", "2.0"] ∧
    (∀ k ∈ idxC2.versions.map Prod.fst, cmpfullver k "3.0" < 0) ∧
    idxC2.add_artifact artV30 true = (false, idxC2) := by
  decide

/-- C6. `ArtifactVersion.delete` pops from the dict it is iterating over,
so on a bucket holding two content-identity groups it deletes the first
group's files, pops that group, and then the iterator raises
`RuntimeError: dictionary changed size during iteration`: the run raises,
the second group is still in the bucket, and its file is still on disk —
the bucket does not end up empty. -/
theorem c6_delete_all_raises :
    (bktC6.delete false fsC6).raised = true ∧
    (bktC6.delete false fsC6).bucket.inodes.map Prod.fst = [12] ∧
    (bktC6.delete false fsC6).fs = ["repo/g/b"] := by
  decide

/-- Counterexample for C8 as stated: `add --keep-latest 0` does not exit 1 —
`do_add` only rejects negative values, and with 0 it returns exit code 0
(without invoking deletion). -/
theorem c8_keep_latest_zero_counterexample :
    (do_add 0).1 = 0 ∧ (do_add 0).1 ≠ 1 ∧ (do_add 0).2 = false := by
  decide

/-- C8 (amended). `remove-old --keep N` with N ≤ 0 exits 1 without invoking
deletion; `add --keep-latest N` exits 1 only for N < 0, while N = 0 means
"no retention" and exits 0 — in either case no deletion is invoked for
N ≤ 0; for N > 0 both commands invoke deletion and exit 0. -/
theorem c8_cli_keep_validation (n : Int) :
    (n ≤ 0 → do_remove_old n = (1, false)) ∧
    (n < 0 → do_add n = (1, false)) ∧
    (n ≤ 0 → (do_add n).2 = false) ∧
    (0 < n → do_add n = (0, true) ∧ do_remove_old n = (0, true)) := by
  unfold do_add do_remove_old
  refine ⟨fun h => ?_, fun h => ?_, fun h => ?_, fun h => ?_⟩
  · rw [if_pos h]
  · rw [if_pos h]
  · split_ifs with h1 h2 <;> first | rfl | omega
  · rw [if_neg (show ¬ n < 0 by omega), if_pos h, if_neg (show ¬ n ≤ 0 by omega)]
    exact ⟨rfl, rfl⟩

/-- Witness for C8's amended claim at N = -1. -/
theorem c8_witness :
    do_remove_old (-1) = (1, false) ∧ do_add (-1) = (1, false) :=
  ⟨(c8_cli_keep_validation (-1)).1 (by decide),
    (c8_cli_keep_validation (-1)).2.1 (by decide)⟩

theorem alErase_of_not_mem {κ β : Type} [DecidableEq κ] {k : κ} :
    ∀ {l : List (κ × β)}, alMem k l = false → alErase k l = l
  | [], _ => rfl
  | p :: rest, h => by
    unfold alMem alLookup at h
    split_ifs at h with hp
    · simp at h
    · rw [alErase, if_neg hp, alErase_of_not_mem (show alMem k rest = false from h)]

theorem mem_alErase {κ β : Type} [DecidableEq κ] {k : κ} {p : κ × β} :
    ∀ {l : List (κ × β)}, p ∈ alErase k l → p ∈ l
  | [], h => h
  | q :: rest, h => by
    rw [alErase] at h
    split_ifs at h with hq
    · exact List.mem_cons_of_mem _ h
    · rcases List.mem_cons.mp h with rfl | h'
      · exact List.mem_cons_self _ _
      · exact List.mem_cons_of_mem _ (mem_alErase h')

theorem alLookup_alErase_self {κ β : Type} [DecidableEq κ] {k : κ} :
    ∀ {l : List (κ × β)}, (l.map Prod.fst).Nodup → alLookup k (alErase k l) = none
  | [], _ => rfl
  | q :: rest, h => by
    obtain ⟨hq, hrest⟩ := List.nodup_cons.mp h
    rw [alErase]
    split_ifs with hk
    · cases hl : alLookup k rest with
      | none => rfl
      | some w =>
        have hmem : k ∈ rest.map Prod.fst :=
          List.mem_map.mpr ⟨(k, w), alLookup_mem hl, rfl⟩
        exact absurd (hk ▸ hmem) hq
    · rw [alLookup, if_neg hk]
      exact alLookup_alErase_self hrest

theorem alMem_alErase_self {κ β : Type} [DecidableEq κ] {k : κ}
    {l : List (κ × β)} (h : (l.map Prod.fst).Nodup) : alMem k (alErase k l) = false := by
  unfold alMem
  rw [alLookup_alErase_self h]
  rfl

theorem alLookup_alUpdate_self {κ β : Type} [DecidableEq κ] (k : κ) (f : β → β) :
    ∀ l : List (κ × β), alLookup k (alUpdate k f l) = (alLookup k l).map f
  | [] => rfl
  | q :: rest => by
    rw [alUpdate]
    split_ifs with hq
    · rw [alLookup, alLookup, if_pos hq, if_pos hq]
      rfl
    · rw [alLookup, alLookup, if_neg hq, if_neg hq, alLookup_alUpdate_self k f rest]

theorem mem_alUpdate_const {κ β : Type} [DecidableEq κ] {k : κ} {c : β} {p : κ × β} :
    ∀ {l : List (κ × β)}, p ∈ alUpdate k (fun _ => c) l → p ∈ l ∨ p = (k, c)
  | [], h => by cases h
  | q :: rest, h => by
    rw [alUpdate] at h
    split_ifs at h with hq
    · rcases List.mem_cons.mp h with rfl | h'
      · right
        rw [hq]
      · left
        exact List.mem_cons_of_mem _ h'
    · rcases List.mem_cons.mp h with rfl | h'
      · left
        exact List.mem_cons_self _ _
      · rcases mem_alUpdate_const h' with h'' | h''
        · left
          exact List.mem_cons_of_mem _ h''
        · right
          exact h''

theorem alLookup_append_of_none {κ β : Type} [DecidableEq κ] {k : κ} :
    ∀ {l l2 : List (κ × β)}, alLookup k l = none → alLookup k (l ++ l2) = alLookup k l2
  | [], _, _ => rfl
  | q :: rest, l2, h => by
    rw [alLookup] at h
    split_ifs at h with hq
    rw [List.cons_append, alLookup, if_neg hq]
    exact alLookup_append_of_none h

/-- Whatever `noop` is, `ArtifactName.delete_version` leaves the index with
the named version erased (erasing nothing when it was absent). -/
theorem ArtifactName.delete_version_fst (idx : ArtifactName) (v : String)
    (noop : Bool) (fs : List String) :
    (idx.delete_version v noop fs).1 = { idx with versions := alErase v idx.versions } := by
  unfold ArtifactName.delete_version
  split_ifs with h
  · rfl
  · have he : alErase v idx.versions = idx.versions :=
      alErase_of_not_mem (by simpa using h)
    rw [he]


/-- C9. The catalog-level deletion `ArtifactList.delete_version` preserves
the invariant that every reachable Version Bucket is non-empty, leaves no
bucket for the deleted (name, version) pair reachable (the nested
`ArtifactName.delete_version` deletes every group of the bucket via
`delete_inode` and then pops the bucket), and pops the name from the
catalog when the deleted version was the name's last one. -/
theorem c9_delete_version_cascade (cat : ArtifactList) (n v : String) (fs : List String)
    (hinv : CatalogBucketsNonEmpty cat)
    (hnodupN : (cat.names.map Prod.fst).Nodup)
    (hnodupV : ∀ p ∈ cat.names, (p.2.versions.map Prod.fst).Nodup) :
    CatalogBucketsNonEmpty (cat.delete_version n v fs).1 ∧
    (∀ idx, alLookup n (cat.delete_version n v fs).1.names = some idx →
      alMem v idx.versions = false) ∧
    (∀ idx, alLookup n cat.names = some idx → idx.versions.map Prod.fst = [v] →
      alLookup n (cat.delete_version n v fs).1.names = none) := by
  unfold ArtifactList.delete_version
  cases hn : alLookup n cat.names with
  | none =>
    refine ⟨hinv, ?_, ?_⟩
    · intro idx hidx
      have hidx2 : alLookup n cat.names = some idx := hidx
      rw [hn] at hidx2
      cases hidx2
    · intro idx hidx hsingle
      cases hidx
  | some idx0 =>
    dsimp only
    have hidx0mem : (n, idx0) ∈ cat.names := alLookup_mem hn
    set r := (if alMem v idx0.versions then idx0.delete_version v false fs
      else (idx0, fs)) with hrdef
    have hr1 : r.1 = { idx0 with versions := alErase v idx0.versions } := by
      rw [hrdef]
      split_ifs with hm
      · exact ArtifactName.delete_version_fst idx0 v false fs
      · have he : alErase v idx0.versions = idx0.versions :=
          alErase_of_not_mem (by simpa using hm)
        rw [he]
    unfold ArtifactList.delete_version_core
    split_ifs with hempty
    · refine ⟨?_, ?_, ?_⟩
      · intro p hp q hq
        exact hinv p (mem_alErase hp) q hq
      · intro idx hidx
        have hidx2 : alLookup n (alErase n cat.names) = some idx := hidx
        rw [alLookup_alErase_self hnodupN] at hidx2
        cases hidx2
      · intro idx hidx hsingle
        exact alLookup_alErase_self hnodupN
    · have hnodupV0 : (idx0.versions.map Prod.fst).Nodup := hnodupV (n, idx0) hidx0mem
      refine ⟨?_, ?_, ?_⟩
      · intro p hp q hq
        have hp2 : p ∈ alUpdate n (fun _ => r.1) cat.names := hp
        rcases mem_alUpdate_const hp2 with hp' | hp'
        · exact hinv p hp' q hq
        · subst hp'
          have hq2 : q ∈ alErase v idx0.versions := by
            have hq3 : q ∈ r.1.versions := hq
            rw [hr1] at hq3
            exact hq3
          exact hinv (n, idx0) hidx0mem q (mem_alErase hq2)
      · intro idx hidx
        have hidx2 : alLookup n (alUpdate n (fun _ => r.1) cat.names) = some idx := hidx
        rw [alLookup_alUpdate_self, hn, Option.map_some'] at hidx2
        injection hidx2 with hidx3
        rw [← hidx3, hr1]
        exact alMem_alErase_self hnodupV0
      · intro idx hidx hsingle
        injection hidx with hidx2
        exfalso
        apply hempty
        rw [hr1]
        show alErase v idx0.versions = []
        rw [hidx2]
        cases hv0 : idx.versions with
        | nil => rfl
        | cons q qs =>
          rw [hv0] at hsingle
          rw [List.map_cons] at hsingle
          injection hsingle with hq1 hrest
          have hqs : qs = [] := List.map_eq_nil_iff.mp hrest
          subst hqs
          rw [alErase, if_pos hq1]

/-- Witness for C9 on a one-name, one-version catalog: after deleting that
version the invariant still holds and the name is gone from the catalog. -/
theorem c9_witness :
    CatalogBucketsNonEmpty (catC9.delete_version "m" "1.0-1" []).1 ∧
    alLookup "m" (catC9.delete_version "m" "1.0-1" []).1.names = none :=
  ⟨(c9_delete_version_cascade catC9 "m" "1.0-1" []
      (by unfold CatalogBucketsNonEmpty; decide) (by decide) (by decide)).1,
    (c9_delete_version_cascade catC9 "m" "1.0-1" []
      (by unfold CatalogBucketsNonEmpty; decide) (by decide) (by decide)).2.2
      ⟨"m", [("1.0-1", ⟨"1.0-1", [(5, ⟨5, [artM]⟩)]⟩)]⟩
      (by decide) (by decide)⟩

/-- C10. `ArtifactList.add_pkg` skips artifacts whose derived name is
Python `None`, returning `None` and leaving the catalog untouched; for an
artifact with a present name it returns the result of the nested
`ArtifactName.add_artifact` on that name's (found or newly created)
index. -/
theorem c10_add_pkg_spec (cat : ArtifactList) (a : Artifact) (oif : Bool) :
    (a.name = none → cat.add_pkg a oif = (none, cat)) ∧
    (∀ n, a.name = some n →
      (cat.add_pkg a oif).1 =
        some (((alLookup n cat.names).getD ⟨n, []⟩).add_artifact a oif).1) := by
  unfold ArtifactList.add_pkg
  cases ha : a.name with
  | none =>
    refine ⟨fun _ => rfl, fun n hn => (nomatch hn)⟩
  | some n0 =>
    refine ⟨fun hc => (nomatch hc), ?_⟩
    intro n hn
    injection hn with hn2
    subst hn2
    dsimp only
    by_cases hm : alMem n0 cat.names
    · obtain ⟨idx, hidx⟩ := Option.isSome_iff_exists.mp
        (show (alLookup n0 cat.names).isSome from hm)
      rw [if_pos hm, hidx]
      rfl
    · rw [if_neg hm]
      have hnone : alLookup n0 cat.names = none := by
        unfold alMem at hm
        cases hl : alLookup n0 cat.names with
        | none => rfl
        | some w =>
          rw [hl] at hm
          exact absurd rfl hm
      rw [alLookup_append_of_none hnone, hnone]
      rw [alLookup, if_pos rfl]
      rfl

/-- Witness for C10: a `None`-named artifact is skipped with the catalog
unchanged; a named artifact is admitted with the nested call's result. -/
theorem c10_witness :
    catC10.add_pkg artNoName false = (none, catC10) ∧
    (catC10.add_pkg artWName false).1 = some true :=
  ⟨(c10_add_pkg_spec catC10 artNoName false).1 rfl,
    by
      rw [(c10_add_pkg_spec catC10 artWName false).2 "w" rfl]
      decide⟩
